import Mathlib

/-!
Verification development for `enrich_knowledge_base.py`: an incremental
metadata-enrichment and reconciliation engine for a catalog of bookmarked
references.

Shallow embedding conventions used throughout:

* Python strings are modelled as `String` / `List Char`; the regex character
  classes `\d`, `\w`, `\s`, `[A-Z]` are modelled over ASCII (all inputs of
  interest are ASCII urls and ASCII abstracts).
* `re.search` has leftmost-match semantics: the word-level scanners below try a
  match at every successive start position, first success wins.
* JSON objects are modelled as structures.  The enrichment fields
  (`summary`, `date`, `authors`) are `Option`-valued; `none` covers both "key
  absent" and "key present with JSON null", exactly the granularity at which
  the program reads them (`item.get(...) is not None`).  Under this encoding
  `dict.setdefault(key, None)` is the identity, modelled by `setdefaultNull`.
* The `url` key of an item is `Option String`; `none` means the key is absent
  (`item.get("url", "")` then yields `""`, while `item["url"]` raises
  `KeyError`, modelled as `Except.error ()`).
* All network I/O is abstracted by oracle parameters (functions passed to the
  model); everything computed locally from their results is modelled
  faithfully from the source.
-/

namespace KB

/-- Python regex `\s` (ASCII part): space, tab, newline, carriage return,
vertical tab, form feed. -/
def isSpaceChar (c : Char) : Bool :=
  c = ' ' || c = '\t' || c = '\n' || c = '\r' || c = Char.ofNat 11 || c = Char.ofNat 12

/-- Python regex `\w` (ASCII part): letters, digits, underscore. -/
def isWordChar (c : Char) : Bool :=
  c.isAlpha || c.isDigit || c = '_'

/-- Python regex `[A-Z]`. -/
def isUpperAZ (c : Char) : Bool :=
  'A' ≤ c && c ≤ 'Z'

/-- The delimiter class `[/\-_.]` of `extract_year_from_url`. -/
def isDelim (c : Char) : Bool :=
  c = '/' || c = '-' || c = '_' || c = '.'

/-- Numeric value of an ASCII digit. -/
def digitVal (c : Char) : Nat := c.toNat - 48

/-- Match exactly four `\d` at the head; return them and the rest. -/
def takeDigits4 : List Char → Option (List Char × List Char)
  | a :: b :: c :: d :: rest =>
    if a.isDigit && b.isDigit && c.isDigit && d.isDigit then
      some ([a, b, c, d], rest)
    else none
  | _ => none

/-- Maximal run of `\d` at the head (`\d+`, greedy); fails on an empty run. -/
def takeDigits1 (l : List Char) : Option (List Char × List Char) :=
  match l.span Char.isDigit with
  | (ds, rest) => if ds.isEmpty then none else some (ds, rest)

/-- Interpret a digit list as a `Nat` (Python `int` of the matched group). -/
def digitsToNat (ds : List Char) : Nat :=
  ds.foldl (fun n c => 10 * n + digitVal c) 0

/-- `startsWithChars needle hay`: `needle` is a prefix of `hay`. -/
def startsWithChars : List Char → List Char → Bool
  | [], _ => true
  | _ :: _, [] => false
  | a :: as, b :: bs => a = b && startsWithChars as bs

/-- Python `needle in hay` on strings: substring containment. -/
def containsSub (needle : List Char) : List Char → Bool
  | [] => startsWithChars needle []
  | l@(_ :: rest) => startsWithChars needle l || containsSub needle rest

/-- `re.search` leftmost semantics: try the position matcher `m` at every
successive start position of the input, first success wins. -/
def reSearch (m : List Char → Option α) : List Char → Option α
  | [] => m []
  | l@(_ :: rest) =>
    match m l with
    | some r => some r
    | none => reSearch m rest

/-- Position matcher for `/(\d{4})\.\w+`: returns the four digits verbatim
(the group is returned as text, not converted through `int`). -/
def matchSlashYearDotAt : List Char → Option String
  | '/' :: rest =>
    match takeDigits4 rest with
    | some (ds, '.' :: w :: _) => if isWordChar w then some (String.mk ds) else none
    | _ => none
  | _ => none

/-- Position matcher shared by the regexes `/[A-Z](\d{2})-\d+` (in
`extract_year_from_url`) and `/([A-Z])(\d{2})-\d+` (in `extract_acl_year`):
the two match the same strings and both functions use only the two-digit
group, so one scanner returning its numeric value is a faithful translation
of both. -/
def matchSlashLetterYYAt : List Char → Option Nat
  | '/' :: u :: a :: b :: '-' :: e :: _ =>
    if isUpperAZ u && a.isDigit && b.isDigit && e.isDigit then
      some (10 * digitVal a + digitVal b)
    else none
  | _ => none

/-- Position matcher for `[/\-_.](\d{4})[/\-_.]`: a four-digit token between
two delimiters, returned as its numeric value (the source converts through
`int` before the range check). -/
def matchDelimYearAt : List Char → Option Nat
  | d1 :: rest =>
    if isDelim d1 then
      match takeDigits4 rest with
      | some (ds, d2 :: _) => if isDelim d2 then some (digitsToNat ds) else none
      | _ => none
    else none
  | _ => none

/-- Position matcher for `/(\d{4})/?$`: a four-digit token ending the string,
optionally followed by a final slash. -/
def matchEndYearAt : List Char → Option Nat
  | '/' :: rest =>
    match takeDigits4 rest with
    | some (ds, []) => some (digitsToNat ds)
    | some (ds, ['/']) => some (digitsToNat ds)
    | _ => none
  | _ => none

/-- `extract_arxiv_id`: regex
`arxiv\.org/(?:abs|pdf|html)/(\d+\.\d+)(?:v\d+)?`, group 1.  The trailing
optional `(?:v\d+)?` never constrains the match and captures nothing, so it
is not modelled.  The alternation followed by `/` is matched as one of the
three literal section prefixes. -/
def matchArxivIdAt (l : List Char) : Option String :=
  if startsWithChars "arxiv.org/".data l then
    let rest := l.drop "arxiv.org/".data.length
    let sect :=
      if startsWithChars "abs/".data rest then some (rest.drop 4)
      else if startsWithChars "pdf/".data rest then some (rest.drop 4)
      else if startsWithChars "html/".data rest then some (rest.drop 5)
      else none
    match sect with
    | some afterSect =>
      match takeDigits1 afterSect with
      | some (d1, '.' :: r2) =>
        match takeDigits1 r2 with
        | some (d2, _) => some (String.mk (d1 ++ '.' :: d2))
        | none => none
      | _ => none
    | none => none
  else none

/-- `extract_arxiv_id(url)`: extract an arxiv paper id such as `2402.12329`
from a url, or `None`. -/
def extract_arxiv_id (url : String) : Option String :=
  reSearch matchArxivIdAt url.data

/-- The fourth step of `extract_year_from_url`: `/(\d{4})/?$` with the
`1990 ≤ yr ≤ 2030` bound. -/
def yearStep4 (l : List Char) : Option String :=
  match reSearch matchEndYearAt l with
  | some yr => if 1990 ≤ yr && yr ≤ 2030 then some (toString yr) else none
  | none => none

/-- `extract_year_from_url(url)`: ordered fallback chain of four regex
patterns, exactly as in the source.  Note that in the third step the leftmost
match of `[/\-_.](\d{4})[/\-_.]` is range-checked; when it is out of
`[1990, 2030]` the code falls through to the fourth pattern without looking
for a later in-range token. -/
def extract_year_from_url (url : String) : Option String :=
  match reSearch matchSlashYearDotAt url.data with
  | some s => some s
  | none =>
    match reSearch matchSlashLetterYYAt url.data with
    | some yy => some (toString (if yy < 50 then 2000 + yy else 1900 + yy))
    | none =>
      match reSearch matchDelimYearAt url.data with
      | some yr =>
        if 1990 ≤ yr && yr ≤ 2030 then some (toString yr) else yearStep4 url.data
      | none => yearStep4 url.data

/-- `extract_acl_year(url)`: the first two patterns of the generic chain
(`/(\d{4})\.\w+`, then `/([A-Z])(\d{2})-\d+` with the `yy < 50` pivot). -/
def extract_acl_year (url : String) : Option String :=
  match reSearch matchSlashYearDotAt url.data with
  | some s => some s
  | none =>
    match reSearch matchSlashLetterYYAt url.data with
    | some yy => some (toString (if yy < 50 then 2000 + yy else 1900 + yy))
    | none => none

/-- `re.sub(r'\s+', ' ', text)`: collapse each maximal whitespace run to a
single space.  `prevSpace` records whether the previous character was
whitespace (i.e. whether we are inside a run whose single space was already
emitted). -/
def collapseWsAux : List Char → Bool → List Char
  | [], _ => []
  | c :: rest, prevSpace =>
    if isSpaceChar c then
      if prevSpace then collapseWsAux rest true
      else ' ' :: collapseWsAux rest true
    else c :: collapseWsAux rest false

def collapseWs (l : List Char) : List Char := collapseWsAux l false

/-- Python `str.strip()` (ASCII whitespace). -/
def stripWs (l : List Char) : List Char :=
  ((l.dropWhile isSpaceChar).reverse.dropWhile isSpaceChar).reverse

/-- `re.split(r'(?<=[.!?])\s+', text)`: split at each maximal whitespace run
whose immediately preceding character is `.`, `!` or `?`; the whole run is
consumed as the separator.  `prev` is the character just before the current
position (`none` at the start of the string); `inSep` records that we are
still consuming a separator run. -/
def splitSentencesAux : List Char → Option Char → Bool → List Char → List String
  | [], _, _, acc => [String.mk acc]
  | c :: rest, prev, inSep, acc =>
    if inSep && isSpaceChar c then
      splitSentencesAux rest (some c) true acc
    else if isSpaceChar c && (prev = some '.' || prev = some '!' || prev = some '?') then
      String.mk acc :: splitSentencesAux rest (some c) true []
    else
      splitSentencesAux rest (some c) false (acc ++ [c])

/-- The sentence list of `truncate_to_sentences`: collapse whitespace, strip,
then split at sentence boundaries. -/
def sentencesOf (text : String) : List String :=
  splitSentencesAux (stripWs (collapseWs text.data)) none false []

/-- `truncate_to_sentences(text, max_sentences)`: at most `max_sentences`
sentences, joined by single spaces (Python default argument is 3; callers in
this model always pass it explicitly). -/
def truncate_to_sentences (text : String) (max_sentences : Nat) : String :=
  let t := stripWs (collapseWs text.data)
  let sentences := splitSentencesAux t none false []
  if sentences.length ≤ max_sentences then String.mk t
  else String.intercalate " " (sentences.take max_sentences)

/-- Modelled from the claim wording for step (3) of the fallback chain:
"any 4-digit token delimited by `/`, `-`, `_` or `.` and within
[1990, 2030]" — the in-range bound is part of the pattern, so the search
looks for a delimited four-digit token whose value lies in the range. -/
def matchDelimYearInRangeAt (l : List Char) : Option Nat :=
  match matchDelimYearAt l with
  | some yr => if 1990 ≤ yr && yr ≤ 2030 then some yr else none
  | none => none

/-- Modelled from the claim wording of C4: the four-step ordered fallback
chain in which step (3) matches any delimited four-digit token within
[1990, 2030] (first such token wins), to be compared with
`extract_year_from_url`. -/
def spec_year_chain (url : String) : Option String :=
  match reSearch matchSlashYearDotAt url.data with
  | some s => some s
  | none =>
    match reSearch matchSlashLetterYYAt url.data with
    | some yy => some (toString (if yy < 50 then 2000 + yy else 1900 + yy))
    | none =>
      match reSearch matchDelimYearInRangeAt url.data with
      | some yr => some (toString yr)
      | none => yearStep4 url.data

/-! ## Data model

One catalog entry (`Item`), as read and written by the pipeline.  Only
fields the program touches are modelled; `none` stands for "key absent or
JSON null" (both read identically through `item.get`). -/

structure Item where
  title : String
  url : Option String
  type : Option String
  summary : Option String
  date : Option String
  authors : Option (List String)
deriving DecidableEq

structure Category where
  name : String
  items : List Item
deriving DecidableEq

structure KBMetadata where
  total_items : Nat
deriving DecidableEq

structure Catalog where
  categories : List Category
  metadata : KBMetadata
deriving DecidableEq

/-- `dict.setdefault(key, None)` under the `Option` encoding: it writes only
when the key is absent, and the value written is null, so the observable
value (read through `item.get`) never changes. -/
def setdefaultNull (x : Option α) : Option α :=
  match x with
  | some v => some v
  | none => none

/-- Metadata for one arxiv id as parsed from a feed entry by
`fetch_arxiv_batch` (summary already truncated, date already cut to
`YYYY-MM-DD`, empty author list already turned into null). -/
structure ArxivMeta where
  summary : Option String
  date : Option String
  authors : Option (List String)
deriving DecidableEq

/-! ## Batch scheduler and arxiv merge (`enrich_arxiv`)

The network call `fetch_arxiv_batch` is abstracted by an oracle
`fA : List String → Except Unit (String → Option ArxivMeta)`: `.error` is a
raised exception for the whole batch, `.ok res` the parsed per-id results
(`res id = none` models `arxiv_id not in results`).  The trace records the
externally observable scheduling events. -/

def BATCH_SIZE : Nat := 50

def API_DELAY : Nat := 3

/-- Helper for `chunksOf`: `acc` is the chunk being built (in order), `k`
its remaining capacity. -/
def chunksAux (n : Nat) : List α → Nat → List α → List (List α)
  | [], _, acc => if acc.isEmpty then [] else [acc]
  | x :: xs, 0, acc => acc :: chunksAux n xs (n - 1) [x]
  | x :: xs, Nat.succ k, acc => chunksAux n xs k (acc ++ [x])

/-- The chunking performed by `for i in range(0, len(all_ids), BATCH_SIZE)`
with `batch = all_ids[i:i + BATCH_SIZE]` (see `chunksOf_cons` for the
slice-by-slice characterisation). -/
def chunksOf (n : Nat) (l : List α) : List (List α) :=
  match l with
  | [] => []
  | x :: xs => chunksAux n xs (n - 1) [x]

/-- Externally observable events of one `enrich_arxiv` run. -/
inductive AEvent where
  | fetchBatch : List String → AEvent
  | sleep : Nat → AEvent
deriving DecidableEq

def AEvent.isSleep : AEvent → Bool
  | .sleep _ => true
  | .fetchBatch _ => false

def AEvent.batch? : AEvent → Option (List String)
  | .fetchBatch b => some b
  | .sleep _ => none

/-- `item["summary"] = meta["summary"]` etc.: the Merge Engine's write of one
fetched result onto one item record. -/
def writeMeta (meta : ArxivMeta) (it : Item) : Item :=
  { it with summary := meta.summary, date := meta.date, authors := meta.authors }

/-- `items_by_id[arxiv_id]` (a Python dict lookup; keys are unique). -/
def lookupItems (m : List (String × List Item)) (id : String) : List Item :=
  match m.find? (fun e => e.1 = id) with
  | some e => e.2
  | none => []

/-- Write `meta` onto every item registered under `id`. -/
def updateEntries (m : List (String × List Item)) (id : String) (meta : ArxivMeta) :
    List (String × List Item) :=
  m.map (fun e => if e.1 = id then (e.1, e.2.map (writeMeta meta)) else e)

/-- The inner `for arxiv_id in batch` loop of `enrich_arxiv`: found ids get
`meta` written onto every registered item (incrementing the counter per
item); ids absent from the response get `setdefault(None)` on each field,
the identity under the `Option` encoding. -/
def applyBatch (res : String → Option ArxivMeta) :
    List String → List (String × List Item) × Nat → List (String × List Item) × Nat
  | [], st => st
  | id :: rest, (m, n) =>
    match res id with
    | some meta => applyBatch res rest (updateEntries m id meta, n + (lookupItems m id).length)
    | none => applyBatch res rest (m, n)

/-- The batch loop of `enrich_arxiv`.  On a fetch exception the `continue`
skips both the merge and the inter-batch sleep; after a successful batch the
3-second sleep happens exactly when a later batch remains
(`i + BATCH_SIZE < len(all_ids)`). -/
def enrich_arxiv_go (fA : List String → Except Unit (String → Option ArxivMeta)) :
    List (List String) → List (String × List Item) × Nat × List AEvent →
    List (String × List Item) × Nat × List AEvent
  | [], st => st
  | c :: cs, (m, n, tr) =>
    match fA c with
    | .error _ => enrich_arxiv_go fA cs (m, n, tr ++ [AEvent.fetchBatch c])
    | .ok res =>
      let st1 := applyBatch res c (m, n)
      let tr1 :=
        if cs.isEmpty then tr ++ [AEvent.fetchBatch c]
        else tr ++ [AEvent.fetchBatch c, AEvent.sleep API_DELAY]
      enrich_arxiv_go fA cs (st1.1, st1.2, tr1)

/-- `enrich_arxiv(items_by_id)`: returns the updated registry, the enriched
count, and the scheduling trace. -/
def enrich_arxiv (fA : List String → Except Unit (String → Option ArxivMeta))
    (items_by_id : List (String × List Item)) :
    List (String × List Item) × Nat × List AEvent :=
  enrich_arxiv_go fA (chunksOf BATCH_SIZE (items_by_id.map Prod.fst)) (items_by_id, 0, [])

/-! ## ACL Anthology adapter (`enrich_acl`)

`fetch_acl_abstract`'s network fetch, pattern list and tag stripping are
abstracted by an oracle `oAbs : String → Option String` giving the
stripped raw abstract (`none` = fetch exception or no pattern matched); the
model applies the final `truncate_to_sentences`.  The second fetch plus
`extract_acl_authors` is abstracted by
`oAuth : String → Except Unit (Option (List String))`: `.error` = fetch
exception, `.ok none` = page fetched but no author links found. -/

/-- `fetch_acl_abstract(url)` given the abstracted fetch/pattern result. -/
def fetch_acl_abstract (oAbs : String → Option String) (url : String) : Option String :=
  (oAbs url).map (fun raw => truncate_to_sentences raw 3)

/-- One iteration of the `for item in items` loop of `enrich_acl`.  Note the
unconditional writes: `item["date"]` is always assigned (from the url), and
`item["authors"]` is assigned whenever the authors-page fetch succeeds, even
when no author links were found.  `summary` is only assigned when a
non-empty abstract was obtained (Python truthiness: `if abstract:`);
otherwise `setdefault` leaves it unchanged.  A missing `"url"` key raises
`KeyError`. -/
def acl_item_step (oAbs : String → Option String)
    (oAuth : String → Except Unit (Option (List String))) (item : Item) :
    Except Unit (Item × Nat) :=
  match item.url with
  | none => .error ()
  | some url =>
    let year := extract_acl_year url
    let item1 : Item := { item with date := year.map (fun y => y ++ "-01-01") }
    let st :=
      match fetch_acl_abstract oAbs url with
      | some abst =>
        if abst = "" then ({ item1 with summary := setdefaultNull item1.summary }, 0)
        else ({ item1 with summary := some abst }, 1)
      | none => ({ item1 with summary := setdefaultNull item1.summary }, 0)
    let item2 :=
      match oAuth url with
      | .ok authors => { st.1 with authors := authors }
      | .error _ => { st.1 with authors := setdefaultNull st.1.authors }
    .ok (item2, st.2)

/-- `enrich_acl(items)`: per-item processing in order; returns the updated
items and the count of items enriched with an abstract. -/
def enrich_acl (oAbs : String → Option String)
    (oAuth : String → Except Unit (Option (List String))) :
    List Item → Except Unit (List Item × Nat)
  | [] => .ok ([], 0)
  | it :: rest =>
    match acl_item_step oAbs oAuth it with
    | .error e => .error e
    | .ok (it1, n) =>
      match enrich_acl oAbs oAuth rest with
      | .error e => .error e
      | .ok (rest1, ns) => .ok (it1 :: rest1, n + ns)

/-! ## Generic-paper and non-document adapters -/

/-- One iteration of `enrich_other_papers`: `item["url"]` (raising `KeyError`
when the key is absent), year heuristics, unconditional `item["date"]`
assignment, `setdefault` on summary/authors. -/
def other_paper_step (item : Item) : Except Unit Item :=
  match item.url with
  | none => .error ()
  | some url =>
    .ok { item with
          date := (extract_year_from_url url).map (fun y => y ++ "-01-01"),
          summary := setdefaultNull item.summary,
          authors := setdefaultNull item.authors }

/-- `enrich_other_papers(items)`: returns updated items and the count (one
per item). -/
def enrich_other_papers : List Item → Except Unit (List Item × Nat)
  | [] => .ok ([], 0)
  | it :: rest =>
    match other_paper_step it with
    | .error e => .error e
    | .ok it1 =>
      match enrich_other_papers rest with
      | .error e => .error e
      | .ok (rest1, n) => .ok (it1 :: rest1, n + 1)

/-- One iteration of `set_null_fields`: three `setdefault`s. -/
def set_null_step (item : Item) : Item :=
  { item with
    summary := setdefaultNull item.summary,
    date := setdefaultNull item.date,
    authors := setdefaultNull item.authors }

/-- `set_null_fields(items)` for non-paper items. -/
def set_null_fields (items : List Item) : List Item :=
  items.map set_null_step

/-! ## Classifier (the loop at the top of `run_enrichment`) -/

/-- The provenance bucket of one item, per the classification conditionals
of `run_enrichment`. -/
inductive Bucket where
  | enriched
  | arxiv : String → Bucket
  | acl
  | otherPaper
  | nonPaper
deriving DecidableEq

/-- Which bucket one item falls into: already-enriched items (non-null
summary) are skipped; papers go by url shape (`item.get("url", "")`);
everything else is a non-paper item. -/
def classify_item (it : Item) : Bucket :=
  if it.summary.isSome then .enriched
  else if it.type = some "paper" then
    let url := it.url.getD ""
    match extract_arxiv_id url with
    | some id => .arxiv id
    | none =>
      if containsSub "aclanthology.org".data url.data then .acl
      else .otherPaper
  else .nonPaper

/-- The four bucket collections built by the classification loop; item
references are modelled as positions `(category index, item index)` into the
catalog. -/
structure Classified where
  arxiv_items : List (String × List (Nat × Nat))
  acl_items : List (Nat × Nat)
  other_paper_items : List (Nat × Nat)
  non_paper_items : List (Nat × Nat)
deriving DecidableEq

/-- `arxiv_items.setdefault(arxiv_id, []).append(item)`: append the position
to the entry of `id`, creating the entry at the end on first occurrence
(Python dict insertion order). -/
def setdefaultAppend : List (String × List (Nat × Nat)) → String → Nat × Nat →
    List (String × List (Nat × Nat))
  | [], id, p => [(id, [p])]
  | (k, ps) :: rest, id, p =>
    if k = id then (k, ps ++ [p]) :: rest
    else (k, ps) :: setdefaultAppend rest id p

/-- One step of the classification loop. -/
def classifyStep (acc : Classified) (pi : (Nat × Nat) × Item) : Classified :=
  match classify_item pi.2 with
  | .enriched => acc
  | .arxiv id => { acc with arxiv_items := setdefaultAppend acc.arxiv_items id pi.1 }
  | .acl => { acc with acl_items := acc.acl_items ++ [pi.1] }
  | .otherPaper => { acc with other_paper_items := acc.other_paper_items ++ [pi.1] }
  | .nonPaper => { acc with non_paper_items := acc.non_paper_items ++ [pi.1] }

/-- All items of the catalog with their positions, in traversal order. -/
def indexedItems (data : Catalog) : List ((Nat × Nat) × Item) :=
  (data.categories.enum.map (fun ce =>
    ce.2.items.enum.map (fun ie => ((ce.1, ie.1), ie.2)))).flatten

/-- The classification loop of `run_enrichment`. -/
def classifyCatalog (data : Catalog) : Classified :=
  (indexedItems data).foldl classifyStep ⟨[], [], [], []⟩

/-- Position `p` is registered in some bucket of `c`. -/
def posInClassified (p : Nat × Nat) (c : Classified) : Prop :=
  (∃ e ∈ c.arxiv_items, p ∈ e.2) ∨ p ∈ c.acl_items ∨
    p ∈ c.other_paper_items ∨ p ∈ c.non_paper_items

/-! ## The full run (`run_enrichment`)

The pipeline mutates item dicts in place through the references collected by
the classifier; each item is referenced by exactly one bucket, so the run is
rendered purely as a per-item transformation.  For an arxiv-bucket item the
in-place effect of `enrich_arxiv` on its id is recomputed by
`arxivOutcomeGo`, which walks the same batching as `enrich_arxiv_go`:
`none` = untouched (failed batch, id absent from the response, or id never
batched), `some meta` = overwritten with the fetched metadata. -/

/-- Per-id effect of the batch loop: find the chunk carrying `id` and return
its fetched result (ids are dict keys, hence appear in exactly one chunk). -/
def arxivOutcomeGo (fA : List String → Except Unit (String → Option ArxivMeta))
    (id : String) : List (List String) → Option ArxivMeta
  | [] => none
  | c :: cs =>
    if id ∈ c then
      match fA c with
      | .ok res => res id
      | .error _ => none
    else arxivOutcomeGo fA id cs

/-- `Except`-valued map over a list, failing at the first error (the run
crashes at the first `KeyError`). -/
def exceptMapList (f : α → Except Unit β) : List α → Except Unit (List β)
  | [] => .ok []
  | x :: xs =>
    match f x with
    | .error e => .error e
    | .ok y =>
      match exceptMapList f xs with
      | .error e => .error e
      | .ok ys => .ok (y :: ys)

/-- The effect of the full pipeline on one item, according to its bucket. -/
def transformItem (aOut : String → Option ArxivMeta) (oAbs : String → Option String)
    (oAuth : String → Except Unit (Option (List String))) (it : Item) :
    Except Unit Item :=
  match classify_item it with
  | .enriched =>
    .ok { it with date := setdefaultNull it.date, authors := setdefaultNull it.authors }
  | .arxiv id =>
    .ok (match aOut id with
         | some meta => writeMeta meta it
         | none => set_null_step it)
  | .acl => (acl_item_step oAbs oAuth it).map Prod.fst
  | .otherPaper => other_paper_step it
  | .nonPaper => .ok (set_null_step it)

/-- The per-id arxiv outcome function of a run: `all_ids` is the key list of
the classifier's `arxiv_items` (first-occurrence order), batched exactly as
in `enrich_arxiv`. -/
def runAOut (fA : List String → Except Unit (String → Option ArxivMeta))
    (data : Catalog) : String → Option ArxivMeta :=
  fun id => arxivOutcomeGo fA id
    (chunksOf BATCH_SIZE ((classifyCatalog data).arxiv_items.map Prod.fst))

/-- The run's effect on one category: transform each item in place. -/
def runCategory (aOut : String → Option ArxivMeta) (oAbs : String → Option String)
    (oAuth : String → Except Unit (Option (List String))) (cat : Category) :
    Except Unit Category :=
  match exceptMapList (transformItem aOut oAbs oAuth) cat.items with
  | .error e => .error e
  | .ok items1 => .ok { cat with items := items1 }

/-- `run_enrichment`: classify, enrich each bucket, and return the catalog
as persisted; `metadata` is written back exactly as it was loaded. -/
def run_enrichment (fA : List String → Except Unit (String → Option ArxivMeta))
    (oAbs : String → Option String)
    (oAuth : String → Except Unit (Option (List String)))
    (data : Catalog) : Except Unit Catalog :=
  match exceptMapList (runCategory (runAOut fA data) oAbs oAuth) data.categories with
  | .error e => .error e
  | .ok cats1 => .ok { data with categories := cats1 }

/-! ## Overlay & reconciliation views (`getMergedData` in the generated page)

The Store document `DATA`, the Overlay's `pendingAdditions` (an item draft
plus its `_category` target name) and `pendingRemovals` (a url list used as
a set), and the flag `includeRemovals` (`true` = Display view, `false` =
Commit/export view). -/

/-- `merged.categories.find(c => c.name === p._category)` followed by
`cat.items.push(item)`: append the draft to the first category with the
target name; when no category matches, the addition is dropped. -/
def pushPending : List Category → Item × String → List Category
  | [], _ => []
  | c :: cs, p =>
    if c.name = p.2 then { c with items := c.items ++ [p.1] } :: cs
    else c :: pushPending cs p

/-- The filter predicate of the Commit view:
`!removedSet.has(item.url)` (an item without a url is never in the set). -/
def keepItem (removals : List String) (it : Item) : Bool :=
  match it.url with
  | some u => !(removals.contains u)
  | none => true

/-- `getMergedData(includeRemovals)`: deep-copy the Store, append pending
additions into their target categories, filter removals out only when
`includeRemovals` is false, and recompute `total_items` as the merged
per-category sum. -/
def getMergedData (data : Catalog) (pending : List (Item × String))
    (removals : List String) (includeRemovals : Bool) : Catalog :=
  let cats0 := pending.foldl pushPending data.categories
  let cats :=
    if includeRemovals then cats0
    else cats0.map (fun c => { c with items := c.items.filter (keepItem removals) })
  { categories := cats,
    metadata := { total_items := (cats.map (fun c => c.items.length)).sum } }

/-! ## Spec-side views and concrete instances used by witnesses -/

/-- Modelled from the spec: the expected pacing trace of the batch
scheduler — one fetch per batch, a delay between consecutive batches, none
after the last. -/
def paced : List (List String) → List AEvent
  | [] => []
  | [c] => [AEvent.fetchBatch c]
  | c :: cs => AEvent.fetchBatch c :: AEvent.sleep API_DELAY :: paced cs

/-- The item a run result holds at position `(ci, ii)`. -/
def runItemAt (r : Except Unit Catalog) (ci ii : Nat) : Option Item :=
  match r with
  | .ok d => (d.categories[ci]?).bind (fun c => c.items[ii]?)
  | .error _ => none

/-- The metadata a run result persists. -/
def runMetadata (r : Except Unit Catalog) : Option KBMetadata :=
  match r with
  | .ok d => some d.metadata
  | .error _ => none

/-- Oracle: every batch fetch raises. -/
def failFA : List String → Except Unit (String → Option ArxivMeta) := fun _ => .error ()

/-- Oracle: every batch fetch succeeds with an empty response. -/
def okFA : List String → Except Unit (String → Option ArxivMeta) := fun _ => .ok (fun _ => none)

/-- Oracle: every abstract fetch fails or matches nothing. -/
def oAbs0 : String → Option String := fun _ => none

/-- Oracle: every authors-page fetch raises. -/
def oAuth0 : String → Except Unit (Option (List String)) := fun _ => .error ()

/-- Oracle: every authors-page fetch succeeds but carries no author links. -/
def oAuthOkNone : String → Except Unit (Option (List String)) := fun _ => .ok none

/-- 125 distinct identifiers, each with an empty reference list. -/
def m125 : List (String × List Item) := (List.range 125).map (fun k => (toString k, []))

/-- An already-enriched arxiv paper item. -/
def itEnr : Item :=
  ⟨"enr", some "https://arxiv.org/abs/1111.2222", some "paper", some "done",
    some "2020-01-01", none⟩

/-- A catalog holding just the enriched item. -/
def dataW : Catalog := ⟨[⟨"c", [itEnr]⟩], ⟨1⟩⟩

/-- A non-paper item with no enrichment data. -/
def itNon : Item := ⟨"np", some "https://x.com", some "blog", none, none, none⟩

/-- A catalog whose stored `total_items` (999) disagrees with its actual
per-category item count (1). -/
def data999 : Catalog := ⟨[⟨"c", [itNon]⟩], ⟨999⟩⟩

/-- An unenriched paper item whose `"url"` key is absent. -/
def it3 : Item := ⟨"p", none, some "paper", none, none, none⟩

/-- A catalog holding just the url-less paper item. -/
def dataC3 : Catalog := ⟨[⟨"c", [it3]⟩], ⟨1⟩⟩

/-- A five-sentence abstract. -/
def abstract5 : String := "A one. B two! C three? D four. E five."

/-- A fetched arxiv result. -/
def metaW : ArxivMeta := ⟨some "S", some "2024-01-01", some ["X", "Y"]⟩

/-- Two distinct unenriched items registered under one arxiv id. -/
def itA7 : Item := ⟨"a", some "u1", some "paper", none, none, none⟩

def itB7 : Item := ⟨"b", some "u2", some "paper", none, none, none⟩

/-- Oracle resolving exactly the shared id to `metaW`. -/
def fA7 : List String → Except Unit (String → Option ArxivMeta) :=
  fun _ => .ok (fun id => if id = "1234.5678" then some metaW else none)

/-- A registry with two items sharing one arxiv id. -/
def m7 : List (String × List Item) := [("1234.5678", [itA7, itB7])]

/-- An unenriched ACL item carrying non-null `date` and `authors` from a
previous partial success, whose url yields no extractable year. -/
def itD8 : Item :=
  ⟨"t", some "https://aclanthology.org/volumes/x", some "paper", none,
    some "2015-01-01", some ["A"]⟩

/-- Store items and overlay for the claim C9 instance. -/
def mkIt (t u : String) : Item := ⟨t, some u, some "other", none, none, none⟩

def itA9 : Item := mkIt "A" "urlA"

def itB9 : Item := mkIt "B" "urlB"

def itC9 : Item := mkIt "C" "urlC"

def itD9 : Item := mkIt "D" "urlD"

def storeC9 : Catalog := ⟨[⟨"Main", [itA9, itB9, itC9]⟩], ⟨3⟩⟩

def pendingC9 : List (Item × String) := [(itD9, "Main")]

def removalsC9 : List String := ["urlB"]

/-! # Theorems -/

theorem setdefaultNull_eq (x : Option α) : setdefaultNull x = x := by
  cases x <;> rfl

theorem set_null_step_eq (it : Item) : set_null_step it = it := by
  simp [set_null_step, setdefaultNull_eq]

/-- Claim C10: whenever the ACL-specific year extractor returns a year, the
generic url-year extractor returns the same year — its first two patterns
are exactly the ACL extractor's two patterns, tried in the same order with
the same `yy < 50` pivot. -/
theorem extract_year_refines_acl (url : String) (y : String)
    (h : extract_acl_year url = some y) : extract_year_from_url url = some y := by
  unfold extract_acl_year at h
  unfold extract_year_from_url
  cases h1 : reSearch matchSlashYearDotAt url.data with
  | some s => rw [h1] at h; exact h
  | none =>
    rw [h1] at h
    cases h2 : reSearch matchSlashLetterYYAt url.data with
    | some yy => rw [h2] at h; exact h
    | none => rw [h2] at h; exact absurd h (by simp)

theorem extract_year_refines_acl_witness :
    extract_acl_year "https://aclanthology.org/D15-1013/" = some "2015"
  ∧ extract_year_from_url "https://aclanthology.org/D15-1013/" = some "2015" :=
  ⟨rfl, extract_year_refines_acl _ _ rfl⟩

/-- Claim C4 counterexample: on `"u_3000_2000_v"` the code returns null —
the leftmost delimited four-digit token (`3000`) is out of range and the
code falls through to pattern (4) instead of taking the later in-range token
`2000` — while the claimed pattern (3) ("any 4-digit token delimited ... and
within [1990, 2030]") yields `"2000"`. -/
theorem extract_year_counterexample :
    extract_year_from_url "u_3000_2000_v" = none
  ∧ spec_year_chain "u_3000_2000_v" = some "2000" := ⟨rfl, rfl⟩

/-- Claim C4 (amended): `extract_year_from_url` applies the ordered fallback
chain — (1) `/YYYY.<token>`, (2) `/<Letter><yy>-<digits>` with the pivot
`yy < 50 → 2000+yy else 1900+yy`, (3) the leftmost 4-digit token delimited
by `/`, `-`, `_` or `.`, winning only when within [1990, 2030] and otherwise
falling through to (4) rather than to a later in-range token, (4) a 4-digit
token at the end of the path within the same bound — with first match
winning and null when nothing matches; the four quoted examples hold. -/
theorem extract_year_fallback_chain :
    (∀ url s, reSearch matchSlashYearDotAt url.data = some s →
       extract_year_from_url url = some s)
  ∧ (∀ url yy, reSearch matchSlashYearDotAt url.data = none →
       reSearch matchSlashLetterYYAt url.data = some yy →
       extract_year_from_url url
         = some (toString (if yy < 50 then 2000 + yy else 1900 + yy)))
  ∧ (∀ url yr, reSearch matchSlashYearDotAt url.data = none →
       reSearch matchSlashLetterYYAt url.data = none →
       reSearch matchDelimYearAt url.data = some yr →
       (1990 ≤ yr && yr ≤ 2030) = true →
       extract_year_from_url url = some (toString yr))
  ∧ (∀ url yr, reSearch matchSlashYearDotAt url.data = none →
       reSearch matchSlashLetterYYAt url.data = none →
       reSearch matchDelimYearAt url.data = some yr →
       (1990 ≤ yr && yr ≤ 2030) = false →
       extract_year_from_url url = yearStep4 url.data)
  ∧ (∀ url, reSearch matchSlashYearDotAt url.data = none →
       reSearch matchSlashLetterYYAt url.data = none →
       reSearch matchDelimYearAt url.data = none →
       extract_year_from_url url = yearStep4 url.data)
  ∧ extract_year_from_url "https://aclanthology.org/2024.emnlp-main.557" = some "2024"
  ∧ extract_year_from_url "https://aclanthology.org/D15-1013/" = some "2015"
  ∧ extract_year_from_url "https://example.com/archive/1997/paper" = some "1997"
  ∧ extract_year_from_url "https://example.com/about" = none := by
  refine ⟨?_, ?_, ?_, ?_, ?_, rfl, rfl, rfl, rfl⟩
  · intro url s h1
    unfold extract_year_from_url
    rw [h1]
  · intro url yy h1 h2
    unfold extract_year_from_url
    rw [h1, h2]
  · intro url yr h1 h2 h3 h4
    unfold extract_year_from_url
    rw [h1, h2, h3]
    simp [h4]
  · intro url yr h1 h2 h3 h4
    unfold extract_year_from_url
    rw [h1, h2, h3]
    simp [h4]
  · intro url h1 h2 h3
    unfold extract_year_from_url
    rw [h1, h2, h3]

theorem extract_year_fallback_chain_witness :
    extract_year_from_url "u_3000_2000_v" = yearStep4 "u_3000_2000_v".data :=
  extract_year_fallback_chain.2.2.2.1 "u_3000_2000_v" 3000 rfl rfl rfl rfl

/-- Claim C5: for every text with at least 4 sentences (sentence boundary =
one of `.`, `!`, `?` followed by whitespace, after collapsing internal
whitespace), `truncate_to_sentences` returns exactly the first 3 sentences
joined by single spaces. -/
theorem truncate_keeps_first_three (text : String)
    (h : 4 ≤ (sentencesOf text).length) :
    truncate_to_sentences text 3
      = String.intercalate " " ((sentencesOf text).take 3) := by
  have hlt : ¬ ((sentencesOf text).length ≤ 3) := by omega
  unfold sentencesOf at hlt ⊢
  unfold truncate_to_sentences
  rw [if_neg hlt]

theorem truncate_keeps_first_three_witness :
    4 ≤ (sentencesOf abstract5).length
  ∧ truncate_to_sentences abstract5 3 = "A one. B two! C three?" := by
  refine ⟨by decide, ?_⟩
  rw [truncate_keeps_first_three abstract5 (by decide)]
  rfl

/-! ## Batch scheduler lemmas -/

theorem chunksAux_eq (n : Nat) (xs : List α) : ∀ (k : Nat) (acc : List α), acc ≠ [] →
    chunksAux n xs k acc = (acc ++ xs.take k) :: chunksOf n (xs.drop k) := by
  induction xs with
  | nil =>
    intro k acc hacc
    simp [chunksAux, chunksOf, hacc]
  | cons x xs ih =>
    intro k acc hacc
    cases k with
    | zero => simp [chunksAux, chunksOf]
    | succ k =>
      simp only [chunksAux]
      rw [ih k (acc ++ [x]) (by simp)]
      simp

theorem chunksOf_cons (n : Nat) (x : α) (xs : List α) :
    chunksOf n (x :: xs) = (x :: xs.take (n - 1)) :: chunksOf n (xs.drop (n - 1)) := by
  show chunksAux n xs (n - 1) [x] = _
  rw [chunksAux_eq n xs (n - 1) [x] (by simp)]
  simp

theorem flatten_chunksAux (n : Nat) (xs : List α) : ∀ (k : Nat) (acc : List α),
    (chunksAux n xs k acc).flatten = acc ++ xs := by
  induction xs with
  | nil =>
    intro k acc
    by_cases h : acc = [] <;> simp [chunksAux, h]
  | cons x xs ih =>
    intro k acc
    cases k with
    | zero => simp [chunksAux, ih]
    | succ k => simp [chunksAux, ih]

theorem flatten_chunksOf (n : Nat) (l : List α) : (chunksOf n l).flatten = l := by
  cases l with
  | nil => rfl
  | cons x xs => simp [chunksOf, flatten_chunksAux]

theorem go_batches (fA : List String → Except Unit (String → Option ArxivMeta)) :
    ∀ (cs : List (List String)) (m : List (String × List Item)) (n : Nat) (tr : List AEvent),
      ((enrich_arxiv_go fA cs (m, n, tr)).2.2).filterMap AEvent.batch?
        = tr.filterMap AEvent.batch? ++ cs := by
  intro cs
  induction cs with
  | nil => intro m n tr; simp [enrich_arxiv_go]
  | cons c cs ih =>
    intro m n tr
    simp only [enrich_arxiv_go]
    cases hr : fA c with
    | error e =>
      rw [ih]
      simp [List.filterMap_append, AEvent.batch?]
    | ok res =>
      rw [ih]
      split <;> simp [List.filterMap_append, AEvent.batch?]

theorem go_paced (fA : List String → Except Unit (String → Option ArxivMeta)) :
    ∀ (cs : List (List String)) (m : List (String × List Item)) (n : Nat) (tr : List AEvent),
      (∀ c ∈ cs, ∃ r, fA c = .ok r) →
      (enrich_arxiv_go fA cs (m, n, tr)).2.2 = tr ++ paced cs := by
  intro cs
  induction cs with
  | nil => intro m n tr _; simp [enrich_arxiv_go, paced]
  | cons c cs ih =>
    intro m n tr h
    obtain ⟨r, hr⟩ := h c (List.mem_cons_self c cs)
    simp only [enrich_arxiv_go, hr]
    cases cs with
    | nil => simp [enrich_arxiv_go, paced]
    | cons c1 cs1 =>
      rw [ih _ _ _ (fun c2 hc2 => h c2 (List.mem_cons_of_mem _ hc2))]
      simp [paced]

/-- Claim C6 counterexample: for 125 identifiers the claim asserts a pacing
delay after batch 1 and batch 2; with every batch fetch raising an
exception, the three batches (sizes 50, 50, 25) are still issued but no
delay at all executes — the exception path `continue` skips the sleep, so
consecutive chunks are not separated by the claimed delay. -/
theorem batch_delay_counterexample :
    ((enrich_arxiv failFA m125).2.2.filterMap AEvent.batch?).map List.length = [50, 50, 25]
  ∧ (enrich_arxiv failFA m125).2.2.filter AEvent.isSleep = [] := ⟨rfl, rfl⟩

/-- Claim C6 (amended): the identifier set is split into fixed chunks of 50
issued strictly in input order regardless of failures (a chunk-level
exception is caught and processing continues with the next chunk); when
every issued batch succeeds, the 3-unit delay occurs exactly between
consecutive chunks and never after the last; for 125 identifiers with all
fetches succeeding, exactly 3 batches of sizes 50, 50, 25 are issued with a
delay after batch 1 and batch 2 only.  (After a FAILED chunk the delay is
skipped together with the merge.) -/
theorem batch_scheduler_behavior :
    (∀ fA (m : List (String × List Item)),
       ((enrich_arxiv fA m).2.2).filterMap AEvent.batch?
         = chunksOf BATCH_SIZE (m.map Prod.fst))
  ∧ (∀ fA (m : List (String × List Item)),
       (∀ c ∈ chunksOf BATCH_SIZE (m.map Prod.fst), ∃ r, fA c = .ok r) →
       (enrich_arxiv fA m).2.2 = paced (chunksOf BATCH_SIZE (m.map Prod.fst)))
  ∧ (chunksOf BATCH_SIZE (m125.map Prod.fst)).map List.length = [50, 50, 25]
  ∧ (enrich_arxiv okFA m125).2.2 = paced (chunksOf BATCH_SIZE (m125.map Prod.fst))
  ∧ ((enrich_arxiv okFA m125).2.2.filter AEvent.isSleep).length = 2 := by
  refine ⟨?_, ?_, rfl, ?_, rfl⟩
  · intro fA m
    unfold enrich_arxiv
    rw [go_batches]
    simp
  · intro fA m h
    unfold enrich_arxiv
    rw [go_paced _ _ _ _ _ h]
    simp
  · unfold enrich_arxiv
    rw [go_paced okFA (chunksOf BATCH_SIZE (m125.map Prod.fst)) m125 0 []
      (fun _ _ => ⟨fun _ => none, rfl⟩)]
    simp

theorem batch_scheduler_behavior_witness :
    (enrich_arxiv okFA m125).2.2 = paced (chunksOf BATCH_SIZE (m125.map Prod.fst)) :=
  batch_scheduler_behavior.2.1 okFA m125 (fun _ _ => ⟨fun _ => none, rfl⟩)

/-! ## Merge engine lemmas -/

theorem lookupItems_cons (e : String × List Item) (m : List (String × List Item))
    (id : String) :
    lookupItems (e :: m) id = if e.1 = id then e.2 else lookupItems m id := by
  by_cases h : e.1 = id <;> simp [lookupItems, List.find?, h]

theorem lookupItems_updateEntries_self (m : List (String × List Item)) (id : String)
    (meta : ArxivMeta) :
    lookupItems (updateEntries m id meta) id = (lookupItems m id).map (writeMeta meta) := by
  induction m with
  | nil => rfl
  | cons e m ih =>
    simp only [updateEntries, List.map_cons] at ih ⊢
    by_cases h : e.1 = id
    · rw [if_pos h]
      simp [lookupItems_cons, h]
    · rw [if_neg h]
      simp [lookupItems_cons, h, ih]

theorem lookupItems_updateEntries_ne (m : List (String × List Item)) (idW id : String)
    (meta : ArxivMeta) (h : idW ≠ id) :
    lookupItems (updateEntries m idW meta) id = lookupItems m id := by
  induction m with
  | nil => rfl
  | cons e m ih =>
    simp only [updateEntries, List.map_cons] at ih ⊢
    by_cases he : e.1 = idW
    · rw [if_pos he]
      have hne : e.1 ≠ id := by rw [he]; exact h
      simp [lookupItems_cons, hne, ih]
    · rw [if_neg he]
      by_cases he2 : e.1 = id
      · simp [lookupItems_cons, he2]
      · simp [lookupItems_cons, he2, ih]

theorem applyBatch_lookup_notmem (res : String → Option ArxivMeta) (id : String) :
    ∀ (batch : List String) (m : List (String × List Item)) (n : Nat), id ∉ batch →
      lookupItems (applyBatch res batch (m, n)).1 id = lookupItems m id := by
  intro batch
  induction batch with
  | nil => intro m n _; rfl
  | cons id0 rest ih =>
    intro m n hmem
    simp only [List.mem_cons, not_or] at hmem
    simp only [applyBatch]
    cases hres : res id0 with
    | some meta =>
      rw [ih _ _ hmem.2]
      exact lookupItems_updateEntries_ne _ _ _ _ (fun he => hmem.1 he.symm)
    | none => exact ih _ _ hmem.2

theorem applyBatch_lookup_mem (res : String → Option ArxivMeta) (id : String)
    (meta : ArxivMeta) :
    ∀ (batch : List String) (m : List (String × List Item)) (n : Nat),
      batch.Nodup → id ∈ batch → res id = some meta →
      lookupItems (applyBatch res batch (m, n)).1 id
        = (lookupItems m id).map (writeMeta meta) := by
  intro batch
  induction batch with
  | nil => intro m n _ hmem _; cases hmem
  | cons id0 rest ih =>
    intro m n hnd hmem hres
    simp only [applyBatch]
    by_cases h0 : id0 = id
    · subst h0
      simp only [hres]
      have hnot : id0 ∉ rest := (List.nodup_cons.mp hnd).1
      rw [applyBatch_lookup_notmem res id0 rest _ _ hnot]
      exact lookupItems_updateEntries_self _ _ _
    · have hmem2 : id ∈ rest := by
        cases List.mem_cons.mp hmem with
        | inl h => exact absurd h.symm h0
        | inr h => exact h
      cases hres0 : res id0 with
      | some meta0 =>
        rw [ih _ _ (List.nodup_cons.mp hnd).2 hmem2 hres]
        rw [lookupItems_updateEntries_ne _ _ _ _ h0]
      | none => exact ih _ _ (List.nodup_cons.mp hnd).2 hmem2 hres

theorem go_lookup_notmem (fA : List String → Except Unit (String → Option ArxivMeta))
    (id : String) :
    ∀ (cs : List (List String)) (m : List (String × List Item)) (n : Nat) (tr : List AEvent),
      (∀ c ∈ cs, id ∉ c) →
      lookupItems (enrich_arxiv_go fA cs (m, n, tr)).1 id = lookupItems m id := by
  intro cs
  induction cs with
  | nil => intro m n tr _; rfl
  | cons c cs ih =>
    intro m n tr h
    cases hr : fA c with
    | error e =>
      simp only [enrich_arxiv_go, hr]
      exact ih _ _ _ (fun c2 hc2 => h c2 (List.mem_cons_of_mem _ hc2))
    | ok res =>
      simp only [enrich_arxiv_go, hr]
      rw [ih _ _ _ (fun c2 hc2 => h c2 (List.mem_cons_of_mem _ hc2))]
      exact applyBatch_lookup_notmem res id c m n (h c (List.mem_cons_self _ _))

theorem go_lookup_written (fA : List String → Except Unit (String → Option ArxivMeta))
    (id : String) (meta : ArxivMeta) (c : List String) (post : List (List String))
    (res : String → Option ArxivMeta)
    (hmem : id ∈ c) (hnd : c.Nodup) (hpost : ∀ c2 ∈ post, id ∉ c2)
    (hok : fA c = .ok res) (hres : res id = some meta) :
    ∀ (pre : List (List String)) (m : List (String × List Item)) (n : Nat) (tr : List AEvent),
      (∀ c2 ∈ pre, id ∉ c2) →
      lookupItems (enrich_arxiv_go fA (pre ++ c :: post) (m, n, tr)).1 id
        = (lookupItems m id).map (writeMeta meta) := by
  intro pre
  induction pre with
  | nil =>
    intro m n tr _
    simp only [List.nil_append, enrich_arxiv_go, hok]
    rw [go_lookup_notmem fA id post _ _ _ hpost]
    exact applyBatch_lookup_mem res id meta c m n hnd hmem hres
  | cons c0 pre ih =>
    intro m n tr hpre
    cases hr : fA c0 with
    | error e =>
      simp only [List.cons_append, enrich_arxiv_go, hr]
      exact ih _ _ _ (fun c2 hc2 => hpre c2 (List.mem_cons_of_mem _ hc2))
    | ok r0 =>
      simp only [List.cons_append, enrich_arxiv_go, hr, List.append_eq]
      rw [ih _ _ _ (fun c2 hc2 => hpre c2 (List.mem_cons_of_mem _ hc2))]
      rw [applyBatch_lookup_notmem r0 id c0 m n (hpre c0 (List.mem_cons_self _ _))]

theorem applyBatch_all_none (res : String → Option ArxivMeta) :
    ∀ (batch : List String) (m : List (String × List Item)) (n : Nat),
      (∀ id ∈ batch, res id = none) → applyBatch res batch (m, n) = (m, n) := by
  intro batch
  induction batch with
  | nil => intro m n _; rfl
  | cons id0 rest ih =>
    intro m n h
    simp only [applyBatch, h id0 (List.mem_cons_self _ _)]
    exact ih _ _ (fun i hi => h i (List.mem_cons_of_mem _ hi))

theorem go_all_none (fA : List String → Except Unit (String → Option ArxivMeta)) :
    ∀ (cs : List (List String)) (m : List (String × List Item)) (n : Nat) (tr : List AEvent),
      (∀ c ∈ cs, ∀ r, fA c = .ok r → ∀ id ∈ c, r id = none) →
      (enrich_arxiv_go fA cs (m, n, tr)).1 = m := by
  intro cs
  induction cs with
  | nil => intro m n tr _; rfl
  | cons c cs ih =>
    intro m n tr h
    cases hr : fA c with
    | error e =>
      simp only [enrich_arxiv_go, hr]
      exact ih _ _ _ (fun c2 hc2 r hr2 => h c2 (List.mem_cons_of_mem _ hc2) r hr2)
    | ok res =>
      simp only [enrich_arxiv_go, hr]
      rw [applyBatch_all_none res c m n (h c (List.mem_cons_self _ _) res hr)]
      exact ih _ _ _ (fun c2 hc2 r hr2 => h c2 (List.mem_cons_of_mem _ hc2) r hr2)

/-- Claim C7: if the classifier registered several Items (possibly from
different categories) under one arxiv identifier, then after a successful
batch fetch resolving that identifier, the Merge Engine has written the
fetched `summary`, `date` and `authors` onto every Item registered under
it — so any two such Items hold identical values, not just the first. -/
theorem shared_id_propagation (fA : List String → Except Unit (String → Option ArxivMeta))
    (m : List (String × List Item)) (id : String) (meta : ArxivMeta)
    (pre post : List (List String)) (c : List String) (res : String → Option ArxivMeta)
    (hnd : (m.map Prod.fst).Nodup)
    (hch : chunksOf BATCH_SIZE (m.map Prod.fst) = pre ++ c :: post)
    (hmem : id ∈ c) (hok : fA c = .ok res) (hres : res id = some meta) :
    (∀ it ∈ lookupItems (enrich_arxiv fA m).1 id,
       it.summary = meta.summary ∧ it.date = meta.date ∧ it.authors = meta.authors)
  ∧ (∀ it1 ∈ lookupItems (enrich_arxiv fA m).1 id,
     ∀ it2 ∈ lookupItems (enrich_arxiv fA m).1 id,
       it1.summary = it2.summary ∧ it1.date = it2.date ∧ it1.authors = it2.authors) := by
  have hflat : (pre ++ c :: post).flatten.Nodup := by
    rw [← hch, flatten_chunksOf]
    exact hnd
  rw [List.nodup_flatten] at hflat
  obtain ⟨hall, hpw⟩ := hflat
  have hcnd : c.Nodup := hall c (by simp)
  rw [List.pairwise_append] at hpw
  obtain ⟨-, hpw2, hcross⟩ := hpw
  have hpre : ∀ c2 ∈ pre, id ∉ c2 := fun c2 hc2 hid =>
    hcross c2 hc2 c (List.mem_cons_self _ _) hid hmem
  have hpost : ∀ c2 ∈ post, id ∉ c2 := by
    rw [List.pairwise_cons] at hpw2
    exact fun c2 hc2 hid => hpw2.1 c2 hc2 hmem hid
  have hkey : lookupItems (enrich_arxiv fA m).1 id
      = (lookupItems m id).map (writeMeta meta) := by
    unfold enrich_arxiv
    rw [hch]
    exact go_lookup_written fA id meta c post res hmem hcnd hpost hok hres pre m 0 [] hpre
  constructor
  · intro it hit
    rw [hkey] at hit
    obtain ⟨x, _, rfl⟩ := List.mem_map.mp hit
    exact ⟨rfl, rfl, rfl⟩
  · intro it1 h1 it2 h2
    rw [hkey] at h1
    rw [hkey] at h2
    obtain ⟨x1, _, rfl⟩ := List.mem_map.mp h1
    obtain ⟨x2, _, rfl⟩ := List.mem_map.mp h2
    exact ⟨rfl, rfl, rfl⟩

theorem shared_id_propagation_witness :
    (lookupItems (enrich_arxiv fA7 m7).1 "1234.5678").map Item.summary
      = [metaW.summary, metaW.summary] := by
  have h := shared_id_propagation fA7 m7 "1234.5678" metaW [] [] ["1234.5678"]
    (fun id => if id = "1234.5678" then some metaW else none)
    (by decide) rfl (by decide) rfl rfl
  have hl : lookupItems (enrich_arxiv fA7 m7).1 "1234.5678"
      = [writeMeta metaW itA7, writeMeta metaW itB7] := rfl
  have hA : writeMeta metaW itA7 ∈ lookupItems (enrich_arxiv fA7 m7).1 "1234.5678" := by
    rw [hl]
    exact List.mem_cons_self _ _
  have hB : writeMeta metaW itB7 ∈ lookupItems (enrich_arxiv fA7 m7).1 "1234.5678" := by
    rw [hl]
    simp
  rw [hl]
  simp only [List.map_cons, List.map_nil]
  rw [(h.1 _ hA).1, (h.1 _ hB).1]

/-- Claim C8 counterexample: for an ACL item affected by an abstract fetch
failure and an authors-page "not found" result, `enrich_acl` overwrites the
previously non-null `date` and `authors` with null — `item["date"]` and
`item["authors"]` are plain assignments, not `setdefault`. -/
theorem null_fill_counterexample :
    itD8.date = some "2015-01-01" ∧ itD8.authors = some ["A"]
  ∧ enrich_acl oAbs0 oAuthOkNone [itD8]
      = .ok ([{ itD8 with date := none, authors := none }], 0) := ⟨rfl, rfl, rfl⟩

/-- Claim C8 (amended): the Arxiv adapter is non-destructive and
failure-isolated — batches whose fetch raises or whose ids are absent from
the response leave every item unchanged (null-fill only adds missing keys),
and a resolved id is written even when other ids of its batch are not
found; the ACL adapter leaves `summary` unchanged on an abstract fetch
failure or parse miss, leaves `authors` unchanged on an authors-page fetch
exception, and processes items independently so one item's failures never
abort its siblings — but it assigns `date` (recomputed from the url)
unconditionally and assigns `authors` unconditionally whenever the authors
page is fetched, which can replace a previously non-null value with null. -/
theorem adapter_failure_semantics :
    (∀ fA (m : List (String × List Item)),
       (∀ c ∈ chunksOf BATCH_SIZE (m.map Prod.fst), ∀ r, fA c = .ok r →
          ∀ id ∈ c, r id = none) →
       (enrich_arxiv fA m).1 = m)
  ∧ (∀ (res : String → Option ArxivMeta) (batch : List String)
       (m : List (String × List Item)) (n : Nat) (id : String) (meta : ArxivMeta),
       batch.Nodup → id ∈ batch → res id = some meta →
       lookupItems (applyBatch res batch (m, n)).1 id
         = (lookupItems m id).map (writeMeta meta))
  ∧ (∀ oAbs oAuth (it : Item) (url : String) (it1 : Item) (k : Nat),
       it.url = some url →
       acl_item_step oAbs oAuth it = .ok (it1, k) →
       ((oAbs url = none → it1.summary = it.summary)
        ∧ (oAuth url = .error () → it1.authors = it.authors)))
  ∧ (∀ oAbs oAuth (items : List Item) (out : List Item × Nat),
       enrich_acl oAbs oAuth items = .ok out →
       ∀ (i : Nat) (it : Item), items[i]? = some it →
         ∃ p, acl_item_step oAbs oAuth it = .ok p ∧ out.1[i]? = some p.1) := by
  refine ⟨?_, ?_, ?_, ?_⟩
  · intro fA m h
    unfold enrich_arxiv
    exact go_all_none fA _ m 0 [] h
  · intro res batch m n id meta hnd hmem hres
    exact applyBatch_lookup_mem res id meta batch m n hnd hmem hres
  · intro oAbs oAuth it url it1 k hurl hstep
    constructor
    · intro habs
      have hfa : fetch_acl_abstract oAbs url = none := by simp [fetch_acl_abstract, habs]
      cases hav : oAuth url with
      | ok authors =>
        simp only [acl_item_step, hurl, hfa, hav, Except.ok.injEq, Prod.mk.injEq] at hstep
        obtain ⟨h1, -⟩ := hstep
        rw [← h1]
        simp [setdefaultNull_eq]
      | error e =>
        simp only [acl_item_step, hurl, hfa, hav, Except.ok.injEq, Prod.mk.injEq] at hstep
        obtain ⟨h1, -⟩ := hstep
        rw [← h1]
        simp [setdefaultNull_eq]
    · intro hauth
      cases hfa : fetch_acl_abstract oAbs url with
      | none =>
        simp only [acl_item_step, hurl, hfa, hauth, Except.ok.injEq, Prod.mk.injEq] at hstep
        obtain ⟨h1, -⟩ := hstep
        rw [← h1]
        simp [setdefaultNull_eq]
      | some abst =>
        by_cases he : abst = ""
        · simp only [acl_item_step, hurl, hfa, hauth, he, if_true, Except.ok.injEq,
            Prod.mk.injEq] at hstep
          obtain ⟨h1, -⟩ := hstep
          rw [← h1]
          simp [setdefaultNull_eq]
        · simp only [acl_item_step, hurl, hfa, hauth, if_neg he, Except.ok.injEq,
            Prod.mk.injEq] at hstep
          obtain ⟨h1, -⟩ := hstep
          rw [← h1]
          simp [setdefaultNull_eq]
  · intro oAbs oAuth items
    induction items with
    | nil =>
      intro out hout i it hit
      simp at hit
    | cons it0 rest ih =>
      intro out hout i it hit
      cases hs : acl_item_step oAbs oAuth it0 with
      | error e =>
        simp only [enrich_acl, hs] at hout
        exact Except.noConfusion hout
      | ok p0 =>
        obtain ⟨it1, n1⟩ := p0
        cases hr : enrich_acl oAbs oAuth rest with
        | error e =>
          simp only [enrich_acl, hs, hr] at hout
          exact Except.noConfusion hout
        | ok pr =>
          obtain ⟨rest1, ns⟩ := pr
          simp only [enrich_acl, hs, hr] at hout
          simp only [Except.ok.injEq] at hout
          subst hout
          cases i with
          | zero =>
            simp only [List.getElem?_cons_zero, Option.some.injEq] at hit
            subst hit
            exact ⟨(it1, n1), hs, by simp⟩
          | succ i =>
            simp only [List.getElem?_cons_succ] at hit
            obtain ⟨p, hp1, hp2⟩ := ih (rest1, ns) hr i it hit
            refine ⟨p, hp1, ?_⟩
            show (it1 :: rest1)[i + 1]? = some p.1
            rw [List.getElem?_cons_succ]
            exact hp2

theorem adapter_failure_semantics_witness :
    (enrich_arxiv failFA m125).1 = m125 :=
  adapter_failure_semantics.1 failFA m125 (fun _ _ _r hr => Except.noConfusion hr)

/-! ## Overlay & reconciliation lemmas -/

theorem pushPending_map_name (cats : List Category) (p : Item × String) :
    (pushPending cats p).map Category.name = cats.map Category.name := by
  induction cats with
  | nil => rfl
  | cons c cs ih =>
    by_cases h : c.name = p.2
    · simp [pushPending, h]
    · simp [pushPending, h, ih]

theorem foldl_pushPending_map_name (pending : List (Item × String)) :
    ∀ (cats : List Category),
      (pending.foldl pushPending cats).map Category.name = cats.map Category.name := by
  induction pending with
  | nil => intro cats; rfl
  | cons p ps ih =>
    intro cats
    rw [List.foldl_cons, ih, pushPending_map_name]

theorem pushPending_getElem (p : Item × String) :
    ∀ (cats : List Category) (i : Nat) (cat : Category),
      (cats.map Category.name).Nodup → cats[i]? = some cat →
      ∃ cat1, (pushPending cats p)[i]? = some cat1 ∧ cat1.name = cat.name ∧
        cat1.items = cat.items ++ (if cat.name = p.2 then [p.1] else []) := by
  intro cats
  induction cats with
  | nil => intro i cat _ hcat; simp at hcat
  | cons c cs ih =>
    intro i cat hnd hcat
    cases i with
    | zero =>
      simp only [List.getElem?_cons_zero, Option.some.injEq] at hcat
      subst hcat
      by_cases h : c.name = p.2
      · exact ⟨{ c with items := c.items ++ [p.1] },
          by simp [pushPending, h], rfl, by simp [h]⟩
      · exact ⟨c, by simp [pushPending, h], rfl, by simp [h]⟩
    | succ i =>
      simp only [List.getElem?_cons_succ] at hcat
      have hndtail : (cs.map Category.name).Nodup := (List.nodup_cons.mp hnd).2
      by_cases h : c.name = p.2
      · -- the head absorbs the addition; `cat` (in the tail) has a different name
        have hmem : cat.name ∈ cs.map Category.name :=
          List.mem_map_of_mem Category.name (List.getElem?_mem hcat)
        have hne : cat.name ≠ p.2 := by
          intro he
          exact (List.nodup_cons.mp hnd).1 (by rw [he, ← h] at hmem; exact hmem)
        refine ⟨cat, ?_, rfl, by simp [hne]⟩
        simp [pushPending, h, hcat]
      · obtain ⟨cat1, h1, h2, h3⟩ := ih i cat hndtail hcat
        refine ⟨cat1, ?_, h2, h3⟩
        simp [pushPending, h, h1]

theorem foldl_pushPending_getElem (pending : List (Item × String)) :
    ∀ (cats : List Category) (i : Nat) (cat : Category),
      (cats.map Category.name).Nodup → cats[i]? = some cat →
      ∃ cat1, (pending.foldl pushPending cats)[i]? = some cat1 ∧ cat1.name = cat.name ∧
        cat1.items = cat.items
          ++ (pending.filter (fun p => p.2 = cat.name)).map Prod.fst := by
  induction pending with
  | nil =>
    intro cats i cat _ hcat
    exact ⟨cat, hcat, rfl, by simp⟩
  | cons p ps ih =>
    intro cats i cat hnd hcat
    obtain ⟨cat1, h1, h2, h3⟩ := pushPending_getElem p cats i cat hnd hcat
    have hnd1 : ((pushPending cats p).map Category.name).Nodup := by
      rw [pushPending_map_name]; exact hnd
    obtain ⟨cat2, g1, g2, g3⟩ := ih (pushPending cats p) i cat1 hnd1 h1
    refine ⟨cat2, g1, g2.trans h2, ?_⟩
    rw [g3, h3, h2]
    by_cases hp : p.2 = cat.name
    · simp [List.filter_cons, hp]
    · have hp2 : ¬ (cat.name = p.2) := fun he => hp he.symm
      simp [List.filter_cons, hp, hp2]

/-- Claim C9: the merged views of Store and Overlay — pending additions are
appended into their (first) target category and silently dropped when no
category carries the target name any more; no new categories are created;
the Display view keeps removed items (they are only flagged by the
renderer), the Commit view filters them out; `total_items` is recomputed as
the merged per-category sum; and for Store items {A, B, C},
pendingRemovals = {B.url}, pendingAdditions = [D], the Commit view is
exactly {A, C, D} with `total_items = 3` while the Display view is
{A, B, C, D} with `total_items = 4`. -/
theorem merged_views (data : Catalog) (pending : List (Item × String))
    (removals : List String)
    (hnd : (data.categories.map Category.name).Nodup) :
    (getMergedData data pending removals true).categories.map Category.name
        = data.categories.map Category.name
  ∧ (getMergedData data pending removals false).categories.map Category.name
        = data.categories.map Category.name
  ∧ (∀ (i : Nat) (cat : Category), data.categories[i]? = some cat →
       ∃ dcat, (getMergedData data pending removals true).categories[i]? = some dcat
         ∧ dcat.name = cat.name
         ∧ dcat.items = cat.items
             ++ (pending.filter (fun p => p.2 = cat.name)).map Prod.fst)
  ∧ (∀ (i : Nat) (dcat : Category),
       (getMergedData data pending removals true).categories[i]? = some dcat →
       ∃ ccat, (getMergedData data pending removals false).categories[i]? = some ccat
         ∧ ccat.name = dcat.name ∧ ccat.items = dcat.items.filter (keepItem removals))
  ∧ (getMergedData data pending removals true).metadata.total_items
        = ((getMergedData data pending removals true).categories.map
            (fun c => c.items.length)).sum
  ∧ (getMergedData data pending removals false).metadata.total_items
        = ((getMergedData data pending removals false).categories.map
            (fun c => c.items.length)).sum
  ∧ getMergedData storeC9 pendingC9 removalsC9 false
        = ⟨[⟨"Main", [itA9, itC9, itD9]⟩], ⟨3⟩⟩
  ∧ getMergedData storeC9 pendingC9 removalsC9 true
        = ⟨[⟨"Main", [itA9, itB9, itC9, itD9]⟩], ⟨4⟩⟩ := by
  refine ⟨?_, ?_, ?_, ?_, rfl, rfl, rfl, rfl⟩
  · simp only [getMergedData, if_pos]
    exact foldl_pushPending_map_name pending data.categories
  · simp only [getMergedData]
    rw [if_neg (by simp)]
    rw [List.map_map]
    have : (Category.name ∘ fun c =>
        { c with items := c.items.filter (keepItem removals) }) = Category.name := rfl
    rw [this]
    exact foldl_pushPending_map_name pending data.categories
  · intro i cat hcat
    obtain ⟨cat1, h1, h2, h3⟩ := foldl_pushPending_getElem pending data.categories i cat hnd hcat
    exact ⟨cat1, by simpa [getMergedData] using h1, h2, h3⟩
  · intro i dcat hdcat
    simp only [getMergedData, if_pos] at hdcat
    refine ⟨{ dcat with items := dcat.items.filter (keepItem removals) }, ?_, rfl, rfl⟩
    simp only [getMergedData]
    rw [if_neg (by simp)]
    rw [List.getElem?_map, hdcat]
    rfl

theorem merged_views_witness :
    (getMergedData storeC9 pendingC9 removalsC9 true).categories.map Category.name
        = storeC9.categories.map Category.name
  ∧ getMergedData storeC9 pendingC9 removalsC9 false
        = ⟨[⟨"Main", [itA9, itC9, itD9]⟩], ⟨3⟩⟩ :=
  ⟨(merged_views storeC9 pendingC9 removalsC9 (by decide)).1,
   (merged_views storeC9 pendingC9 removalsC9 (by decide)).2.2.2.2.2.2.1⟩

/-! ## Classifier and run lemmas -/

theorem classify_enriched_of_summary (it : Item) (s : String) (h : it.summary = some s) :
    classify_item it = Bucket.enriched := by
  simp [classify_item, h]

theorem transformItem_enriched (aOut : String → Option ArxivMeta)
    (oAbs : String → Option String) (oAuth : String → Except Unit (Option (List String)))
    (it : Item) (s : String) (h : it.summary = some s) :
    transformItem aOut oAbs oAuth it = .ok it := by
  simp [transformItem, classify_enriched_of_summary it s h, setdefaultNull_eq]

theorem exceptMapList_ok_get (f : α → Except Unit β) :
    ∀ (l : List α) (l2 : List β), exceptMapList f l = .ok l2 →
      ∀ (i : Nat) (x : α), l[i]? = some x → ∃ y, f x = .ok y ∧ l2[i]? = some y := by
  intro l
  induction l with
  | nil => intro l2 _ i x hx; simp at hx
  | cons a rest ih =>
    intro l2 h i x hx
    cases hf : f a with
    | error e =>
      simp only [exceptMapList, hf] at h
      exact Except.noConfusion h
    | ok y0 =>
      cases hrest : exceptMapList f rest with
      | error e =>
        simp only [exceptMapList, hf, hrest] at h
        exact Except.noConfusion h
      | ok ys =>
        simp only [exceptMapList, hf, hrest, Except.ok.injEq] at h
        subst h
        cases i with
        | zero =>
          simp only [List.getElem?_cons_zero, Option.some.injEq] at hx
          subst hx
          exact ⟨y0, hf, by simp⟩
        | succ i =>
          simp only [List.getElem?_cons_succ] at hx
          obtain ⟨y, hy1, hy2⟩ := ih ys hrest i x hx
          refine ⟨y, hy1, ?_⟩
          show (y0 :: ys)[i + 1]? = some y
          rw [List.getElem?_cons_succ]
          exact hy2

theorem exceptMapList_ok_map (f : α → Except Unit β) (g : β → γ) (g2 : α → γ)
    (hf : ∀ x y, f x = .ok y → g y = g2 x) :
    ∀ (l : List α) (l2 : List β), exceptMapList f l = .ok l2 → l2.map g = l.map g2 := by
  intro l
  induction l with
  | nil =>
    intro l2 h
    simp only [exceptMapList, Except.ok.injEq] at h
    subst h
    rfl
  | cons a rest ih =>
    intro l2 h
    cases hf0 : f a with
    | error e =>
      simp only [exceptMapList, hf0] at h
      exact Except.noConfusion h
    | ok y0 =>
      cases hrest : exceptMapList f rest with
      | error e =>
        simp only [exceptMapList, hf0, hrest] at h
        exact Except.noConfusion h
      | ok ys =>
        simp only [exceptMapList, hf0, hrest, Except.ok.injEq] at h
        subst h
        simp only [List.map_cons]
        rw [ih ys hrest, hf a y0 hf0]

theorem posIn_setdefaultAppend (q p : Nat × Nat) (id : String) :
    ∀ (a : List (String × List (Nat × Nat))),
      (∃ e ∈ setdefaultAppend a id p, q ∈ e.2) →
      (∃ e ∈ a, q ∈ e.2) ∨ q = p := by
  intro a
  induction a with
  | nil =>
    intro ⟨e, he, hq⟩
    simp only [setdefaultAppend, List.mem_singleton] at he
    subst he
    simp only [List.mem_singleton] at hq
    exact Or.inr hq
  | cons kv rest ih =>
    obtain ⟨k, ps⟩ := kv
    intro ⟨e, he, hq⟩
    by_cases h : k = id
    · rw [show setdefaultAppend ((k, ps) :: rest) id p = (k, ps ++ [p]) :: rest by
        simp [setdefaultAppend, h]] at he
      rcases List.mem_cons.mp he with he1 | he1
      · subst he1
        rcases List.mem_append.mp hq with hq1 | hq1
        · exact Or.inl ⟨(k, ps), List.mem_cons_self _ _, hq1⟩
        · exact Or.inr (List.mem_singleton.mp hq1)
      · exact Or.inl ⟨e, List.mem_cons_of_mem _ he1, hq⟩
    · rw [show setdefaultAppend ((k, ps) :: rest) id p
          = (k, ps) :: setdefaultAppend rest id p by simp [setdefaultAppend, h]] at he
      rcases List.mem_cons.mp he with he1 | he1
      · subst he1
        exact Or.inl ⟨(k, ps), List.mem_cons_self _ _, hq⟩
      · rcases ih ⟨e, he1, hq⟩ with ⟨e2, he2, hq2⟩ | h2
        · exact Or.inl ⟨e2, List.mem_cons_of_mem _ he2, hq2⟩
        · exact Or.inr h2

theorem posIn_classifyStep (q : Nat × Nat) (acc : Classified) (pi : (Nat × Nat) × Item)
    (h : posInClassified q (classifyStep acc pi)) :
    posInClassified q acc ∨ (q = pi.1 ∧ classify_item pi.2 ≠ Bucket.enriched) := by
  cases hc : classify_item pi.2 with
  | enriched =>
    simp only [classifyStep, hc] at h
    exact Or.inl h
  | arxiv id =>
    simp only [classifyStep, hc] at h
    unfold posInClassified at h ⊢
    rcases h with h | h
    · rcases posIn_setdefaultAppend q pi.1 id acc.arxiv_items h with h2 | h2
      · exact Or.inl (Or.inl h2)
      · exact Or.inr ⟨h2, by simp [hc]⟩
    · exact Or.inl (Or.inr h)
  | acl =>
    simp only [classifyStep, hc] at h
    unfold posInClassified at h ⊢
    rcases h with h | h | h
    · exact Or.inl (Or.inl h)
    · rcases List.mem_append.mp h with h2 | h2
      · exact Or.inl (Or.inr (Or.inl h2))
      · exact Or.inr ⟨List.mem_singleton.mp h2, by simp [hc]⟩
    · exact Or.inl (Or.inr (Or.inr h))
  | otherPaper =>
    simp only [classifyStep, hc] at h
    unfold posInClassified at h ⊢
    rcases h with h | h | h | h
    · exact Or.inl (Or.inl h)
    · exact Or.inl (Or.inr (Or.inl h))
    · rcases List.mem_append.mp h with h2 | h2
      · exact Or.inl (Or.inr (Or.inr (Or.inl h2)))
      · exact Or.inr ⟨List.mem_singleton.mp h2, by simp [hc]⟩
    · exact Or.inl (Or.inr (Or.inr (Or.inr h)))
  | nonPaper =>
    simp only [classifyStep, hc] at h
    unfold posInClassified at h ⊢
    rcases h with h | h | h | h
    · exact Or.inl (Or.inl h)
    · exact Or.inl (Or.inr (Or.inl h))
    · exact Or.inl (Or.inr (Or.inr (Or.inl h)))
    · rcases List.mem_append.mp h with h2 | h2
      · exact Or.inl (Or.inr (Or.inr (Or.inr h2)))
      · exact Or.inr ⟨List.mem_singleton.mp h2, by simp [hc]⟩

theorem not_posIn_foldl (q : Nat × Nat) :
    ∀ (l : List ((Nat × Nat) × Item)) (acc : Classified),
      (∀ pi ∈ l, pi.1 = q → classify_item pi.2 = Bucket.enriched) →
      ¬ posInClassified q acc →
      ¬ posInClassified q (l.foldl classifyStep acc) := by
  intro l
  induction l with
  | nil => intro acc _ hacc; exact hacc
  | cons pi rest ih =>
    intro acc hl hacc
    rw [List.foldl_cons]
    apply ih
    · exact fun pj hj => hl pj (List.mem_cons_of_mem _ hj)
    · intro hstep
      rcases posIn_classifyStep q acc pi hstep with h | ⟨hq, hne⟩
      · exact hacc h
      · exact hne (hl pi (List.mem_cons_self _ _) hq.symm)

theorem mem_indexedItems (data : Catalog) (ci ii : Nat) (x : Item)
    (h : ((ci, ii), x) ∈ indexedItems data) :
    ∃ cat, data.categories[ci]? = some cat ∧ cat.items[ii]? = some x := by
  unfold indexedItems at h
  rw [List.mem_flatten] at h
  obtain ⟨sub, hsub, hx⟩ := h
  rw [List.mem_map] at hsub
  obtain ⟨ce, hce, rfl⟩ := hsub
  obtain ⟨ci0, cat0⟩ := ce
  rw [List.mem_map] at hx
  obtain ⟨ie, hie, heq⟩ := hx
  obtain ⟨ii0, x0⟩ := ie
  simp only [Prod.mk.injEq] at heq
  obtain ⟨⟨h1, h2⟩, h3⟩ := heq
  subst h1
  subst h2
  subst h3
  exact ⟨cat0, List.mk_mem_enum_iff_getElem?.mp hce, List.mk_mem_enum_iff_getElem?.mp hie⟩

/-- Claim C1: for every catalog and every Item in it whose `summary` is
non-null, a full `run_enrichment` pass leaves the Item — in particular its
`summary`, `date` and `authors` — unchanged in the persisted catalog, and
the idempotency gate keeps the Item out of every classification bucket, so
no network request is made for it. -/
theorem enriched_item_untouched (fA : List String → Except Unit (String → Option ArxivMeta))
    (oAbs : String → Option String) (oAuth : String → Except Unit (Option (List String)))
    (data : Catalog) (ci ii : Nat) (cat : Category) (it : Item) (s : String)
    (hcat : data.categories[ci]? = some cat) (hit : cat.items[ii]? = some it)
    (hsum : it.summary = some s) :
    (∀ out, run_enrichment fA oAbs oAuth data = .ok out →
       (out.categories[ci]?).bind (fun c => c.items[ii]?) = some it)
  ∧ ¬ posInClassified (ci, ii) (classifyCatalog data) := by
  constructor
  · intro out hrun
    cases hF : exceptMapList (runCategory (runAOut fA data) oAbs oAuth) data.categories with
    | error e =>
      simp only [run_enrichment, hF] at hrun
      exact Except.noConfusion hrun
    | ok cats1 =>
      simp only [run_enrichment, hF, Except.ok.injEq] at hrun
      subst hrun
      obtain ⟨cat1, hc1, hc2⟩ := exceptMapList_ok_get _ data.categories cats1 hF ci cat hcat
      cases hI : exceptMapList (transformItem (runAOut fA data) oAbs oAuth) cat.items with
      | error e =>
        simp only [runCategory, hI] at hc1
        exact Except.noConfusion hc1
      | ok items1 =>
        simp only [runCategory, hI, Except.ok.injEq] at hc1
        subst hc1
        obtain ⟨y, hy1, hy2⟩ := exceptMapList_ok_get _ cat.items items1 hI ii it hit
        rw [transformItem_enriched _ _ _ it s hsum] at hy1
        injection hy1 with hy
        subst hy
        show (cats1[ci]?).bind (fun c => c.items[ii]?) = some it
        rw [hc2]
        simpa using hy2
  · unfold classifyCatalog
    apply not_posIn_foldl
    · intro pi hpi hq
      obtain ⟨q0, x⟩ := pi
      simp only at hq
      subst hq
      obtain ⟨cat2, hcat2, hit2⟩ := mem_indexedItems data ci ii x hpi
      rw [hcat] at hcat2
      injection hcat2 with he
      subst he
      rw [hit] at hit2
      injection hit2 with he2
      subst he2
      exact classify_enriched_of_summary it s hsum
    · unfold posInClassified
      simp

theorem enriched_item_untouched_witness :
    runItemAt (run_enrichment failFA oAbs0 oAuth0 dataW) 0 0 = some itEnr
  ∧ ¬ posInClassified (0, 0) (classifyCatalog dataW) := by
  have h := enriched_item_untouched failFA oAbs0 oAuth0 dataW 0 0
    ⟨"c", [itEnr]⟩ itEnr "done" rfl rfl rfl
  refine ⟨?_, h.2⟩
  have hr : run_enrichment failFA oAbs0 oAuth0 dataW = .ok dataW := rfl
  unfold runItemAt
  rw [hr]
  exact h.1 dataW hr

/-- Claim C2 counterexample: `run_enrichment` persists the loaded
`metadata.total_items` verbatim — on a catalog whose stored counter (999)
disagrees with the actual per-category item count (1), the persisted
document still carries 999, so the run does not recompute `total_items` as
the sum of per-category counts. -/
theorem total_items_not_recomputed :
    run_enrichment failFA oAbs0 oAuth0 data999 = .ok data999
  ∧ data999.metadata.total_items = 999
  ∧ (data999.categories.map (fun c => c.items.length)).sum = 1 := ⟨rfl, rfl, rfl⟩

/-- Claim C2 (amended): an enrichment run persists `metadata` — in
particular `total_items` — unchanged from the loaded catalog document, and
also changes no per-category item count (the pipeline only mutates item
fields in place); `total_items` is recomputed only by the client-side merge
view, not by the run. -/
theorem run_preserves_metadata (fA : List String → Except Unit (String → Option ArxivMeta))
    (oAbs : String → Option String) (oAuth : String → Except Unit (Option (List String)))
    (data : Catalog) (out : Catalog)
    (h : run_enrichment fA oAbs oAuth data = .ok out) :
    out.metadata = data.metadata
  ∧ out.categories.map (fun c => c.items.length)
      = data.categories.map (fun c => c.items.length) := by
  cases hF : exceptMapList (runCategory (runAOut fA data) oAbs oAuth) data.categories with
  | error e =>
    simp only [run_enrichment, hF] at h
    exact Except.noConfusion h
  | ok cats1 =>
    simp only [run_enrichment, hF, Except.ok.injEq] at h
    subst h
    refine ⟨rfl, ?_⟩
    show cats1.map (fun c => c.items.length) = data.categories.map (fun c => c.items.length)
    apply exceptMapList_ok_map _ _ _ _ data.categories cats1 hF
    intro cat cat1 hc
    cases hI : exceptMapList (transformItem (runAOut fA data) oAbs oAuth) cat.items with
    | error e =>
      simp only [runCategory, hI] at hc
      exact Except.noConfusion hc
    | ok items1 =>
      simp only [runCategory, hI, Except.ok.injEq] at hc
      subst hc
      show items1.length = cat.items.length
      have hmap := exceptMapList_ok_map (transformItem (runAOut fA data) oAbs oAuth)
        (fun _ => (1 : Nat)) (fun _ => (1 : Nat)) (fun _ _ _ => rfl) cat.items items1 hI
      have hlen := congrArg List.length hmap
      simpa using hlen

theorem run_preserves_metadata_witness :
    runMetadata (run_enrichment failFA oAbs0 oAuth0 data999) = some data999.metadata := by
  have h := run_preserves_metadata failFA oAbs0 oAuth0 data999 data999 rfl
  have h2 : runMetadata (Except.ok data999 : Except Unit Catalog) = some data999.metadata :=
    congrArg some h.1
  exact h2

/-- Claim C3 (code bug): an unenriched `paper` Item with no url key IS
classified into the Generic-paper bucket (the classifier reads
`item.get("url", "")`), but it is not processed without error: the spec
requires tolerance, yet `enrich_other_papers` evaluates `item["url"]`, which
raises `KeyError` and aborts the whole run instead of yielding a null
date. -/
theorem missing_url_aborts_run :
    classify_item it3 = Bucket.otherPaper
  ∧ (classifyCatalog dataC3).other_paper_items = [(0, 0)]
  ∧ other_paper_step it3 = .error ()
  ∧ run_enrichment failFA oAbs0 oAuth0 dataC3 = .error () := ⟨rfl, rfl, rfl, rfl⟩

end KB
